import Mathlib

/-!
Shallow embedding of `CondensedNearestNeighbour._fit_resample` and
`_validate_estimator` from
`imbalanced_ensemble/sampler/under_sampling/_prototype_selection/_condensed_nearest_neighbour.py`.

The dataset is modelled as a row count `n`, feature function `X : Nat → F`
and label function `y : Nat → L`.  The nearest-neighbor classifier
collaborator is modelled as a pure function `pr` from the fitted training
data (the list of feature/label pairs selected by the current
`C_indices`) and a query feature to a predicted label: the source refits
its estimator on every update of `C_indices`, so the fitted state is a
pure function of the training data.  The numpy `RandomState` is modelled
as a stream `rng : Nat → Nat` consumed with an explicit counter;
`randint(low=0, high=m)` takes the next raw value modulo `m`.
-/

namespace CNNUS

/-- Indices `i < n` with `y i = c`, in ascending order: `np.flatnonzero(y == c)`. -/
def flatnonzero {L : Type} [DecidableEq L] (n : Nat) (y : Nat → L) (c : L) : List Nat :=
  (List.range n).filter (fun i => decide (y i = c))

/-- The label sequence of the dataset as a list, in row order. -/
def labelsList {L : Type} (n : Nat) (y : Nat → L) : List L :=
  (List.range n).map y

/-- Multiplicity of label `c` in the dataset: `Counter(y)[c]`. -/
def countLabel {L : Type} [DecidableEq L] (n : Nat) (y : Nat → L) (c : L) : Nat :=
  (flatnonzero n y c).length

/-- Helper for `firstDedup`, keeping an accumulator of labels already seen. -/
def firstDedupAux {L : Type} [DecidableEq L] : List L → List L → List L
  | acc, [] => acc
  | acc, c :: rest =>
    if c ∈ acc then firstDedupAux acc rest else firstDedupAux (acc ++ [c]) rest

/-- Distinct elements of a list in first-encounter order, matching the
iteration order of a Python `Counter` built from the list. -/
def firstDedup {L : Type} [DecidableEq L] (l : List L) : List L :=
  firstDedupAux [] l

/-- Python `min(iterable, key=f)`: the first element attaining the minimal
key, `none` on the empty list. -/
def argminFirst {L : Type} (f : L → Nat) : List L → Option L
  | [] => none
  | c :: rest => some (rest.foldl (fun best x => if f x < f best then x else best) c)

/-- `class_minority = min(target_stats, key=target_stats.get)`: the label of
minimal count, ties broken by the label first encountered while counting. -/
def classMinority {L : Type} [DecidableEq L] (n : Nat) (y : Nat → L) : Option L :=
  argminFirst (countLabel n y) (firstDedup (labelsList n y))

/-- `np.unique(y)`: distinct labels of the dataset in ascending order. -/
def classesOf {L : Type} [DecidableEq L] [LinearOrder L] (n : Nat) (y : Nat → L) : List L :=
  List.insertionSort (· ≤ ·) (firstDedup (labelsList n y))

/-- `np.unique` on an index array: ascending sorted deduplication. -/
def npUnique (l : List Nat) : List Nat :=
  List.insertionSort (· ≤ ·) l.dedup

/-- The training data the estimator is fitted on for a given index list
`C`: the feature/label pairs `(X[C], y[C])`, order and duplicates kept. -/
def fitData {F L : Type} (C : List Nat) (X : Nat → F) (y : Nat → L) : List (F × L) :=
  C.map (fun j => (X j, y j))

/-- The mutable state of the candidate loop of `_fit_resample`:
`C_indices`, `idx_maj_sample` and `good_classif_label`. -/
structure CNNState where
  Cidx : List Nat
  idxMajSample : List Nat
  good : List Nat
  deriving DecidableEq, Repr

/-- `np.flatnonzero(pred_S_y == S_y)`: queue positions whose batch
prediction under the classifier fitted on `C` matches the true label. -/
def matchedPositions {F L : Type} [DecidableEq L] (pr : List (F × L) → F → L)
    (X : Nat → F) (y : Nat → L) (Sidx C : List Nat) : List Nat :=
  (List.range Sidx.length).filter
    (fun p => decide (pr (fitData C X y) (X (Sidx.getD p 0)) = y (Sidx.getD p 0)))

/-- One iteration of the candidate loop of `_fit_resample` at queue
position `idxSam`: skip when `idx_sam in good_classif_label`; otherwise
classify the candidate and, on disagreement, append its global index to
`idx_maj_sample` and `C_indices`, refit, batch-predict the queue and
recompute `good_classif_label`. -/
def innerStep {F L : Type} [DecidableEq L] (pr : List (F × L) → F → L)
    (X : Nat → F) (y : Nat → L) (Sidx : List Nat) (st : CNNState) (idxSam : Nat) : CNNState :=
  if idxSam ∈ st.good then st
  else
    if y (Sidx.getD idxSam 0) ≠ pr (fitData st.Cidx X y) (X (Sidx.getD idxSam 0)) then
      { Cidx := st.Cidx ++ [Sidx.getD idxSam 0],
        idxMajSample := st.idxMajSample ++ [Sidx.getD idxSam 0],
        good := npUnique ((st.idxMajSample ++ [Sidx.getD idxSam 0]) ++
          matchedPositions pr X y Sidx (st.Cidx ++ [Sidx.getD idxSam 0])) }
    else st

/-- The loop state entering a target class: `C_indices` is minority
indices followed by the seed draws, `idx_maj_sample` and
`good_classif_label` both start as the seed draws. -/
def initState (minIdx seeds : List Nat) : CNNState :=
  { Cidx := minIdx ++ seeds, idxMajSample := seeds, good := seeds }

/-- The loop state after the first `t` candidate positions have been
processed. -/
def loopStateAt {F L : Type} [DecidableEq L] (pr : List (F × L) → F → L)
    (X : Nat → F) (y : Nat → L) (Sidx : List Nat) (st0 : CNNState) (t : Nat) : CNNState :=
  ((List.range Sidx.length).take t).foldl (innerStep pr X y Sidx) st0

/-- Processing of one targeted class: run the candidate loop over all
queue positions and emit the final `idx_maj_sample`. -/
def processClass {F L : Type} [DecidableEq L] (pr : List (F × L) → F → L)
    (X : Nat → F) (y : Nat → L) (Sidx minIdx seeds : List Nat) : List Nat :=
  ((List.range Sidx.length).foldl (innerStep pr X y Sidx) (initState minIdx seeds)).idxMajSample

/-- `idx_maj[random_state.randint(low=0, high=len(idx_maj), size=k)]`:
`k` seed indices drawn with replacement from `idxMaj`, consuming the raw
stream values `rng ctr, …, rng (ctr+k-1)` reduced modulo `idxMaj.length`. -/
def seedsFor (rng : Nat → Nat) (ctr k : Nat) (idxMaj : List Nat) : List Nat :=
  (List.range k).map (fun j => idxMaj.getD (rng (ctr + j) % idxMaj.length) 0)

/-- The per-class loop of `_fit_resample` over the distinct labels, with
the random-stream counter threaded through the targeted classes. -/
def orchestrate {F L : Type} [DecidableEq L] (pr : List (F × L) → F → L)
    (rng : Nat → Nat) (X : Nat → F) (y : Nat → L) (minIdx : List Nat)
    (strat : List L) (k n : Nat) : Nat → List L → List Nat
  | _, [] => []
  | ctr, c :: cs =>
    if c ∈ strat then
      processClass pr X y (flatnonzero n y c) minIdx
          (seedsFor rng ctr k (flatnonzero n y c))
        ++ orchestrate pr rng X y minIdx strat k n (ctr + k) cs
    else
      flatnonzero n y c ++ orchestrate pr rng X y minIdx strat k n ctr cs

/-- The full accumulated `idx_under` of `_fit_resample`: statistics are
collected once, the minority label fixed, and every distinct label is
processed in ascending order. -/
def fitResampleIdx {F L : Type} [DecidableEq L] [LinearOrder L]
    (pr : List (F × L) → F → L) (rng : Nat → Nat) (X : Nat → F) (y : Nat → L)
    (n : Nat) (strat : List L) (k : Nat) : List Nat :=
  match classMinority n y with
  | none => []
  | some cm => orchestrate pr rng X y (flatnonzero n y cm) strat k n 0 (classesOf n y)

/-- The `n_neighbors` constructor argument: `None`, an `int`, a
`KNeighborsClassifier` instance (abstracted as a value of `K`), or a
value of any other type. -/
inductive NNArg (K : Type) where
  | noneArg : NNArg K
  | intArg : Int → NNArg K
  | knnArg : K → NNArg K
  | otherArg : NNArg K

/-- The resolved estimator produced by `_validate_estimator`. -/
inductive Estimator (K : Type) where
  | defaultKNN : Int → Estimator K
  | cloned : K → Estimator K

/-- The `ValueError` message raised by `_validate_estimator`. -/
def nnErrorMsg : String :=
  "n_neighbors has to be a int or an object inherited from KNeighborsClassifier."

/-- `_validate_estimator`: `None` builds a default 1-NN classifier, an
`int` builds a classifier with that neighbor count, a
`KNeighborsClassifier` instance is cloned, anything else raises. -/
def validateEstimator {K : Type} : NNArg K → Except String (Estimator K)
  | NNArg.noneArg => Except.ok (Estimator.defaultKNN 1)
  | NNArg.intArg m => Except.ok (Estimator.defaultKNN m)
  | NNArg.knnArg c => Except.ok (Estimator.cloned c)
  | NNArg.otherArg => Except.error nnErrorMsg

/-- Whether an `Except` value is an error. -/
def isErr {E A : Type} : Except E A → Bool
  | Except.error _ => true
  | Except.ok _ => false

/-- The outputs of `_fit_resample`: the `sample_indices_` attribute and
the gathered feature/label rows, plus the gathered weights when a weight
sequence was supplied. -/
structure ResampleResult (F L W : Type) where
  sampleIndices : List Nat
  Xout : List F
  yout : List L
  wout : Option (List W)
  deriving Repr

/-- `_fit_resample` end to end: validate the estimator configuration
first (failing fast on a bad `n_neighbors`), then accumulate `idx_under`
and gather the outputs at those indices. -/
def fitResample {K F L W : Type} [DecidableEq L] [LinearOrder L] (arg : NNArg K)
    (pr : List (F × L) → F → L) (rng : Nat → Nat) (X : Nat → F) (y : Nat → L)
    (n : Nat) (strat : List L) (k : Nat) (w : Option (Nat → W)) :
    Except String (ResampleResult F L W) :=
  match validateEstimator arg with
  | Except.error e => Except.error e
  | Except.ok _ =>
    Except.ok
      { sampleIndices := fitResampleIdx pr rng X y n strat k
        Xout := (fitResampleIdx pr rng X y n strat k).map X
        yout := (fitResampleIdx pr rng X y n strat k).map y
        wout := w.map (fun wf => (fitResampleIdx pr rng X y n strat k).map wf) }

/-! ### Spec-side variants for refinement comparison -/

/-- Modelled from the spec: the position-based skip semantics the spec
assumes as intended (section 4.3 step 4a together with the
WellClassifiedSet description), where the set of well-classified
candidates is tracked as queue positions throughout — initialized to the
positions of the seed draws, recomputed after a retrain as seed
positions united with the matched positions — for comparison with the
source loop `innerStep`, whose tracked set holds global dataset
indices mixed with positions. -/
def innerStepPos {F L : Type} [DecidableEq L] (pr : List (F × L) → F → L)
    (X : Nat → F) (y : Nat → L) (Sidx seedPos : List Nat) (st : CNNState)
    (idxSam : Nat) : CNNState :=
  if idxSam ∈ st.good then st
  else
    if y (Sidx.getD idxSam 0) ≠ pr (fitData st.Cidx X y) (X (Sidx.getD idxSam 0)) then
      { Cidx := st.Cidx ++ [Sidx.getD idxSam 0],
        idxMajSample := st.idxMajSample ++ [Sidx.getD idxSam 0],
        good := npUnique (seedPos ++
          matchedPositions pr X y Sidx (st.Cidx ++ [Sidx.getD idxSam 0])) }
    else st

/-- Modelled from the spec: the queue positions occupied by the seed
draws, the position-based rendering of "WellClassifiedSet initialized to
the seed indices". -/
def seedPositions (Sidx seeds : List Nat) : List Nat :=
  (List.range Sidx.length).filter (fun p => decide (Sidx.getD p 0 ∈ seeds))

/-- Modelled from the spec: per-class processing under the position-based
skip semantics, for comparison with the source `processClass` — the
tracked set starts as the seed queue positions (not the seeds' global
indices) and is recomputed from positions throughout. -/
def processClassPos {F L : Type} [DecidableEq L] (pr : List (F × L) → F → L)
    (X : Nat → F) (y : Nat → L) (Sidx minIdx seeds : List Nat) : List Nat :=
  ((List.range Sidx.length).foldl
      (innerStepPos pr X y Sidx (seedPositions Sidx seeds))
      { Cidx := minIdx ++ seeds, idxMajSample := seeds,
        good := seedPositions Sidx seeds }).idxMajSample

/-- Modelled from the spec: the candidate-queue members (global dataset
indices) whose fresh batch prediction under the classifier fitted on `C`
matches their true label, for comparison with `matchedPositions`
(the source stores queue positions instead). -/
def matchedIdxGlobal {F L : Type} [DecidableEq L] (pr : List (F × L) → F → L)
    (X : Nat → F) (y : Nat → L) (Sidx C : List Nat) : List Nat :=
  Sidx.filter (fun g => decide (pr (fitData C X y) (X g) = y g))

/-! ### Concrete instance used by counterexamples and witnesses

Eight rows: rows 0, 1, 2 carry label 1 (the minority, count 3), rows
3, …, 7 carry label 0 (the majority, count 5).  The classifier `pr2`
predicts the constant label 2, which matches no true label, so every
individually classified candidate triggers a retrain. -/

/-- Features of the concrete instance: row `i` has feature `i`. -/
def XEx : Nat → Nat := fun i => i

/-- Labels of the concrete instance: 1 on rows below 3, else 0. -/
def yEx : Nat → Nat := fun i => if i < 3 then 1 else 0

/-- A classifier collaborator that predicts the constant label 2. -/
def pr2 : List (Nat × Nat) → Nat → Nat := fun _ _ => 2

/-- The candidate queue of target class 0: global rows 3, …, 7. -/
def SidxEx : List Nat := flatnonzero 8 yEx 0

/-- The minority index set: global rows 0, 1, 2. -/
def minIdxEx : List Nat := flatnonzero 8 yEx 1

/-- A random stream that always yields 0, so the single seed draw is
`idx_maj[0] = 3`. -/
def rngEx : Nat → Nat := fun _ => 0

/-! ### Helper lemmas -/

theorem mem_flatnonzero {L : Type} [DecidableEq L] {n : Nat} {y : Nat → L} {c : L}
    {i : Nat} : i ∈ flatnonzero n y c ↔ i < n ∧ y i = c := by
  simp [flatnonzero, List.mem_filter, List.mem_range]

theorem mem_firstDedupAux {L : Type} [DecidableEq L] {x : L} :
    ∀ (l acc : List L), x ∈ firstDedupAux acc l ↔ x ∈ acc ∨ x ∈ l := by
  intro l
  induction l with
  | nil => intro acc; simp [firstDedupAux]
  | cons c rest ih =>
    intro acc
    by_cases hc : c ∈ acc
    · rw [firstDedupAux, if_pos hc, ih]
      constructor
      · rintro (h | h)
        · exact Or.inl h
        · exact Or.inr (List.mem_cons_of_mem _ h)
      · rintro (h | h)
        · exact Or.inl h
        · rcases List.mem_cons.mp h with h | h
          · exact Or.inl (h ▸ hc)
          · exact Or.inr h
    · rw [firstDedupAux, if_neg hc, ih]
      simp [List.mem_append, List.mem_cons, or_assoc]

theorem mem_firstDedup {L : Type} [DecidableEq L] {x : L} {l : List L} :
    x ∈ firstDedup l ↔ x ∈ l := by
  rw [firstDedup, mem_firstDedupAux]
  simp

theorem nodup_firstDedupAux {L : Type} [DecidableEq L] :
    ∀ (l acc : List L), acc.Nodup → (firstDedupAux acc l).Nodup := by
  intro l
  induction l with
  | nil => intro acc h; simpa [firstDedupAux] using h
  | cons c rest ih =>
    intro acc h
    by_cases hc : c ∈ acc
    · rw [firstDedupAux, if_pos hc]; exact ih acc h
    · rw [firstDedupAux, if_neg hc]
      refine ih _ ?_
      rw [← List.concat_eq_append]
      exact h.concat hc

theorem nodup_firstDedup {L : Type} [DecidableEq L] (l : List L) :
    (firstDedup l).Nodup :=
  nodup_firstDedupAux l [] List.nodup_nil

theorem mem_classesOf {L : Type} [DecidableEq L] [LinearOrder L]
    {n : Nat} {y : Nat → L} {c : L} :
    c ∈ classesOf n y ↔ ∃ i, i < n ∧ y i = c := by
  rw [classesOf, List.mem_insertionSort, mem_firstDedup, labelsList]
  simp [List.mem_map, List.mem_range]

theorem nodup_classesOf {L : Type} [DecidableEq L] [LinearOrder L]
    (n : Nat) (y : Nat → L) : (classesOf n y).Nodup :=
  ((List.perm_insertionSort _ _).nodup_iff).mpr (nodup_firstDedup _)

theorem flatnonzero_ne_nil_of_mem_classesOf {L : Type} [DecidableEq L] [LinearOrder L]
    {n : Nat} {y : Nat → L} {c : L} (h : c ∈ classesOf n y) :
    flatnonzero n y c ≠ [] := by
  rcases mem_classesOf.mp h with ⟨i, hi, hyi⟩
  exact List.ne_nil_of_mem (mem_flatnonzero.mpr ⟨hi, hyi⟩)

theorem mem_seedsFor {rng : Nat → Nat} {ctr k : Nat} {idxMaj : List Nat}
    (h : idxMaj ≠ []) {s : Nat} (hs : s ∈ seedsFor rng ctr k idxMaj) :
    s ∈ idxMaj := by
  rcases List.mem_map.mp hs with ⟨j, _, rfl⟩
  have hlen : 0 < idxMaj.length := List.length_pos.mpr h
  have hlt : rng (ctr + j) % idxMaj.length < idxMaj.length := Nat.mod_lt _ hlen
  rw [List.getD_eq_getElem _ _ hlt]
  exact List.getElem_mem hlt

/-- Case analysis for one candidate-loop iteration: skip, agreeing
prediction (no change), or misclassification (append and recompute). -/
theorem innerStep_eq {F L : Type} [DecidableEq L] (pr : List (F × L) → F → L)
    (X : Nat → F) (y : Nat → L) (Sidx : List Nat) (st : CNNState) (i : Nat) :
    (i ∈ st.good ∧ innerStep pr X y Sidx st i = st)
    ∨ (i ∉ st.good ∧ y (Sidx.getD i 0) = pr (fitData st.Cidx X y) (X (Sidx.getD i 0))
        ∧ innerStep pr X y Sidx st i = st)
    ∨ (i ∉ st.good ∧ y (Sidx.getD i 0) ≠ pr (fitData st.Cidx X y) (X (Sidx.getD i 0))
        ∧ innerStep pr X y Sidx st i =
          { Cidx := st.Cidx ++ [Sidx.getD i 0],
            idxMajSample := st.idxMajSample ++ [Sidx.getD i 0],
            good := npUnique ((st.idxMajSample ++ [Sidx.getD i 0]) ++
              matchedPositions pr X y Sidx (st.Cidx ++ [Sidx.getD i 0])) }) := by
  by_cases h1 : i ∈ st.good
  · exact Or.inl ⟨h1, by simp [innerStep, h1]⟩
  · by_cases h2 : y (Sidx.getD i 0) = pr (fitData st.Cidx X y) (X (Sidx.getD i 0))
    · refine Or.inr (Or.inl ⟨h1, h2, ?_⟩)
      rw [innerStep, if_neg h1, if_neg (not_not_intro h2)]
    · refine Or.inr (Or.inr ⟨h1, h2, ?_⟩)
      rw [innerStep, if_neg h1, if_pos h2]

/-- Across one loop iteration, `idx_maj_sample` is extended by either
nothing or the global index of the current candidate. -/
theorem innerStep_sample {F L : Type} [DecidableEq L] (pr : List (F × L) → F → L)
    (X : Nat → F) (y : Nat → L) (Sidx : List Nat) (st : CNNState) (i : Nat) :
    ∃ t, (innerStep pr X y Sidx st i).idxMajSample = st.idxMajSample ++ t
      ∧ ∀ x ∈ t, x = Sidx.getD i 0 := by
  rcases innerStep_eq pr X y Sidx st i with ⟨_, h⟩ | ⟨_, _, h⟩ | ⟨_, _, h⟩
  · exact ⟨[], by simp [h], by simp⟩
  · exact ⟨[], by simp [h], by simp⟩
  · exact ⟨[Sidx.getD i 0], by simp [h], by simp⟩

/-- Across one loop iteration, `C_indices` is extended by either nothing
or the global index of the current candidate. -/
theorem innerStep_Cidx {F L : Type} [DecidableEq L] (pr : List (F × L) → F → L)
    (X : Nat → F) (y : Nat → L) (Sidx : List Nat) (st : CNNState) (i : Nat) :
    ∃ t, (innerStep pr X y Sidx st i).Cidx = st.Cidx ++ t := by
  rcases innerStep_eq pr X y Sidx st i with ⟨_, h⟩ | ⟨_, _, h⟩ | ⟨_, _, h⟩
  · exact ⟨[], by simp [h]⟩
  · exact ⟨[], by simp [h]⟩
  · exact ⟨[Sidx.getD i 0], by simp [h]⟩

/-- Over any run of loop iterations, `idx_maj_sample` only grows, and
every appended element is the queue entry of some visited position. -/
theorem foldl_sample {F L : Type} [DecidableEq L] (pr : List (F × L) → F → L)
    (X : Nat → F) (y : Nat → L) (Sidx : List Nat) :
    ∀ (l : List Nat) (st : CNNState),
      ∃ t, (l.foldl (innerStep pr X y Sidx) st).idxMajSample = st.idxMajSample ++ t
        ∧ ∀ x ∈ t, ∃ i, i ∈ l ∧ x = Sidx.getD i 0 := by
  intro l
  induction l with
  | nil => intro st; exact ⟨[], by simp, by simp⟩
  | cons i l ih =>
    intro st
    rcases innerStep_sample pr X y Sidx st i with ⟨t0, h0, h0m⟩
    rcases ih (innerStep pr X y Sidx st i) with ⟨t1, h1, h1m⟩
    refine ⟨t0 ++ t1, ?_, ?_⟩
    · rw [List.foldl_cons, h1, h0, List.append_assoc]
    · intro x hx
      rcases List.mem_append.mp hx with hx | hx
      · exact ⟨i, List.mem_cons_self _ _, h0m x hx⟩
      · rcases h1m x hx with ⟨j, hj, hxe⟩
        exact ⟨j, List.mem_cons_of_mem _ hj, hxe⟩

/-- Over any run of loop iterations, `C_indices` only grows. -/
theorem foldl_Cidx {F L : Type} [DecidableEq L] (pr : List (F × L) → F → L)
    (X : Nat → F) (y : Nat → L) (Sidx : List Nat) :
    ∀ (l : List Nat) (st : CNNState),
      ∃ t, (l.foldl (innerStep pr X y Sidx) st).Cidx = st.Cidx ++ t := by
  intro l
  induction l with
  | nil => intro st; exact ⟨[], by simp⟩
  | cons i l ih =>
    intro st
    rcases innerStep_Cidx pr X y Sidx st i with ⟨t0, h0⟩
    rcases ih (innerStep pr X y Sidx st i) with ⟨t1, h1⟩
    exact ⟨t0 ++ t1, by rw [List.foldl_cons, h1, h0, List.append_assoc]⟩

/-- Every index emitted by per-class processing belongs to the target
class queue, provided the seeds do. -/
theorem mem_processClass {F L : Type} [DecidableEq L] {pr : List (F × L) → F → L}
    {X : Nat → F} {y : Nat → L} {Sidx minIdx seeds : List Nat}
    (hs : ∀ s ∈ seeds, s ∈ Sidx) {x : Nat}
    (hx : x ∈ processClass pr X y Sidx minIdx seeds) : x ∈ Sidx := by
  rcases foldl_sample pr X y Sidx (List.range Sidx.length) (initState minIdx seeds)
    with ⟨t, ht, htm⟩
  rw [processClass, ht] at hx
  rcases List.mem_append.mp hx with hx | hx
  · exact hs x hx
  · rcases htm x hx with ⟨i, hi, rfl⟩
    have hilt : i < Sidx.length := List.mem_range.mp hi
    rw [List.getD_eq_getElem _ _ hilt]
    exact List.getElem_mem hilt

/-- The fold underlying `argminFirst` returns either the start value
(when nothing in the list strictly beats it) or the first element of the
list attaining a key strictly below the start value and weakly below
everything after it. -/
theorem foldl_argmin_spec {L : Type} (f : L → Nat) :
    ∀ (l : List L) (b r : L),
      r = l.foldl (fun best x => if f x < f best then x else best) b →
      (r = b ∧ ∀ c ∈ l, f b ≤ f c)
      ∨ (∃ l1 l2, l = l1 ++ r :: l2 ∧ f r < f b
          ∧ (∀ c ∈ l1, f r < f c) ∧ (∀ c ∈ l2, f r ≤ f c)) := by
  intro l
  induction l with
  | nil =>
    intro b r hr
    exact Or.inl ⟨hr, by simp⟩
  | cons x l ih =>
    intro b r hr
    rw [List.foldl_cons] at hr
    by_cases hx : f x < f b
    · rw [if_pos hx] at hr
      rcases ih x r hr with ⟨hrx, hmin⟩ | ⟨l1, l2, hl, hlt, h1, h2⟩
      · refine Or.inr ⟨[], l, by simp [hrx], hrx ▸ hx, by simp, ?_⟩
        intro c hc; exact hrx ▸ hmin c hc
      · refine Or.inr ⟨x :: l1, l2, by rw [hl, List.cons_append], lt_trans hlt hx, ?_, h2⟩
        intro c hc
        rcases List.mem_cons.mp hc with rfl | hc
        · exact hlt
        · exact h1 c hc
    · rw [if_neg hx] at hr
      rcases ih b r hr with ⟨hrb, hmin⟩ | ⟨l1, l2, hl, hlt, h1, h2⟩
      · refine Or.inl ⟨hrb, ?_⟩
        intro c hc
        rcases List.mem_cons.mp hc with rfl | hc
        · exact Nat.le_of_not_lt hx
        · exact hmin c hc
      · refine Or.inr ⟨x :: l1, l2, by rw [hl, List.cons_append], hlt, ?_, h2⟩
        intro c hc
        rcases List.mem_cons.mp hc with rfl | hc
        · exact lt_of_lt_of_le hlt (Nat.le_of_not_lt hx)
        · exact h1 c hc

/-- `argminFirst` decomposes its input around the returned element: the
result has minimal key over the whole list, and every element strictly
before it has a strictly larger key. -/
theorem argminFirst_spec {L : Type} (f : L → Nat) (l : List L) (m : L)
    (hm : argminFirst f l = some m) :
    ∃ l1 l2, l = l1 ++ m :: l2 ∧ (∀ c ∈ l1, f m < f c) ∧ (∀ c ∈ l, f m ≤ f c) := by
  match l, hm with
  | c :: rest, hm =>
    have hm' : m = rest.foldl (fun best x => if f x < f best then x else best) c := by
      simpa [argminFirst] using hm.symm
    rcases foldl_argmin_spec f rest c m hm' with ⟨rfl, hmin⟩ | ⟨l1, l2, hl, hlt, h1, h2⟩
    · refine ⟨[], rest, by simp, by simp, ?_⟩
      intro x hx
      rcases List.mem_cons.mp hx with rfl | hx
      · exact le_refl _
      · exact hmin x hx
    · refine ⟨c :: l1, l2, by rw [hl, List.cons_append], ?_, ?_⟩
      · intro x hx
        rcases List.mem_cons.mp hx with rfl | hx
        · exact hlt
        · exact h1 x hx
      · intro x hx
        rcases List.mem_cons.mp hx with rfl | hx
        · exact le_of_lt hlt
        · rw [hl] at hx
          rcases List.mem_append.mp hx with hx | hx
          · exact le_of_lt (h1 x hx)
          · rcases List.mem_cons.mp hx with rfl | hx
            · exact le_refl _
            · exact h2 x hx

theorem argminFirst_ne_none {L : Type} (f : L → Nat) (c : L) (l : List L) :
    argminFirst f (c :: l) ≠ none := by
  simp [argminFirst]

/-- When the dataset is nonempty, a minority label exists. -/
theorem classMinority_of_pos {L : Type} [DecidableEq L] {n : Nat} (y : Nat → L)
    (hn : 0 < n) : ∃ m, classMinority n y = some m := by
  have h0 : y 0 ∈ labelsList n y := by
    rw [labelsList]
    exact List.mem_map.mpr ⟨0, List.mem_range.mpr hn, rfl⟩
  have h1 : y 0 ∈ firstDedup (labelsList n y) := mem_firstDedup.mpr h0
  rw [classMinority]
  match he : firstDedup (labelsList n y) with
  | [] => rw [he] at h1; cases h1
  | c :: rest => exact ⟨_, rfl⟩

/-- When no minority label exists the dataset is empty. -/
theorem classMinority_none {L : Type} [DecidableEq L] {n : Nat} {y : Nat → L}
    (h : classMinority n y = none) : n = 0 := by
  by_contra hn
  rcases classMinority_of_pos y (Nat.pos_of_ne_zero hn) with ⟨m, hm⟩
  rw [hm] at h
  cases h

/-- Every index emitted by the per-class loop belongs to the class of
one of the processed labels. -/
theorem orchestrate_mem {F L : Type} [DecidableEq L] (pr : List (F × L) → F → L)
    (rng : Nat → Nat) (X : Nat → F) (y : Nat → L) (minIdx : List Nat)
    (strat : List L) (k n : Nat) :
    ∀ (cs : List L) (ctr : Nat),
      (∀ c ∈ cs, c ∈ strat → flatnonzero n y c ≠ []) →
      ∀ x ∈ orchestrate pr rng X y minIdx strat k n ctr cs,
        ∃ c, c ∈ cs ∧ x ∈ flatnonzero n y c := by
  intro cs
  induction cs with
  | nil => intro ctr _ x hx; simp [orchestrate] at hx
  | cons c cs ih =>
    intro ctr hne x hx
    rw [orchestrate] at hx
    by_cases hc : c ∈ strat
    · rw [if_pos hc] at hx
      rcases List.mem_append.mp hx with hx | hx
      · have hseed : ∀ s ∈ seedsFor rng ctr k (flatnonzero n y c), s ∈ flatnonzero n y c :=
          fun s hs => mem_seedsFor (hne c (List.mem_cons_self _ _) hc) hs
        exact ⟨c, List.mem_cons_self _ _, mem_processClass hseed hx⟩
      · rcases ih (ctr + k) (fun c' hc' => hne c' (List.mem_cons_of_mem _ hc')) x hx
          with ⟨c', hc', hxc⟩
        exact ⟨c', List.mem_cons_of_mem _ hc', hxc⟩
    · rw [if_neg hc] at hx
      rcases List.mem_append.mp hx with hx | hx
      · exact ⟨c, List.mem_cons_self _ _, hx⟩
      · rcases ih ctr (fun c' hc' => hne c' (List.mem_cons_of_mem _ hc')) x hx
          with ⟨c', hc', hxc⟩
        exact ⟨c', List.mem_cons_of_mem _ hc', hxc⟩

/-- For a label absent from the strategy, filtering the accumulated
output by that label recovers exactly that label's own block. -/
theorem orchestrate_filter {F L : Type} [DecidableEq L] (pr : List (F × L) → F → L)
    (rng : Nat → Nat) (X : Nat → F) (y : Nat → L) (minIdx : List Nat)
    (strat : List L) (k n : Nat) {c : L} (hc : c ∉ strat) :
    ∀ (cs : List L) (ctr : Nat), cs.Nodup →
      (∀ c' ∈ cs, c' ∈ strat → flatnonzero n y c' ≠ []) →
      (orchestrate pr rng X y minIdx strat k n ctr cs).filter
          (fun i => decide (y i = c)) =
        if c ∈ cs then flatnonzero n y c else [] := by
  intro cs
  induction cs with
  | nil => intro ctr _ _; simp [orchestrate]
  | cons c' cs ih =>
    intro ctr hnd hne
    have hnd' : cs.Nodup := hnd.of_cons
    have hne' : ∀ a ∈ cs, a ∈ strat → flatnonzero n y a ≠ [] :=
      fun a ha => hne a (List.mem_cons_of_mem _ ha)
    rw [orchestrate]
    by_cases hc' : c' ∈ strat
    · have hcc : c' ≠ c := fun he => hc (he ▸ hc')
      rw [if_pos hc', List.filter_append, ih (ctr + k) hnd' hne']
      have hblock : (processClass pr X y (flatnonzero n y c') minIdx
          (seedsFor rng ctr k (flatnonzero n y c'))).filter
            (fun i => decide (y i = c)) = [] := by
        rw [List.filter_eq_nil_iff]
        intro a ha
        have hseed : ∀ s ∈ seedsFor rng ctr k (flatnonzero n y c'), s ∈ flatnonzero n y c' :=
          fun s hs => mem_seedsFor (hne c' (List.mem_cons_self _ _) hc') hs
        have hya : y a = c' := (mem_flatnonzero.mp (mem_processClass hseed ha)).2
        simp [hya, hcc]
      rw [hblock, List.nil_append]
      have hiff : (c ∈ cs) ↔ (c ∈ c' :: cs) := by
        constructor
        · exact List.mem_cons_of_mem _
        · intro h
          rcases List.mem_cons.mp h with h | h
          · exact absurd h.symm hcc
          · exact h
      exact if_congr hiff rfl rfl
    · rw [if_neg hc', List.filter_append, ih ctr hnd' hne']
      by_cases hcc : c' = c
      · subst hcc
        have hblock : (flatnonzero n y c').filter (fun i => decide (y i = c')) =
            flatnonzero n y c' := by
          rw [List.filter_eq_self]
          intro a ha
          simp [(mem_flatnonzero.mp ha).2]
        have hcm : c' ∉ cs := (List.nodup_cons.mp hnd).1
        rw [hblock, if_neg hcm, List.append_nil, if_pos (List.mem_cons_self _ _)]
      · have hblock : (flatnonzero n y c').filter (fun i => decide (y i = c)) = [] := by
          rw [List.filter_eq_nil_iff]
          intro a ha
          simp [(mem_flatnonzero.mp ha).2, hcc]
        rw [hblock, List.nil_append]
        have hiff : (c ∈ cs) ↔ (c ∈ c' :: cs) := by
          constructor
          · exact List.mem_cons_of_mem _
          · intro h
            rcases List.mem_cons.mp h with h | h
            · exact absurd h.symm hcc
            · exact h
        exact if_congr hiff rfl rfl

/-! ### Claims -/

/-- C1 counterexample: the source candidate loop does not implement the
position-based skip semantics the claim states.  On a concrete dataset
(labels 1,1,1,0,0,0,0,0, target class 0, seed draw row 3, a classifier
predicting the constant label 2) the source emits [3, 3, 4, 5] — it
classifies the seed row itself (its queue position 0 is not in the
tracked set, which holds the global index 3) and later skips the never
classified queue positions 3 and 4 because the global indices 3 and 4
entered the tracked set — while the position-based semantics emits
[3, 4, 5, 6, 7]. -/
theorem c1_positionSkip_cex :
    processClass pr2 XEx yEx SidxEx minIdxEx [3] ≠
      processClassPos pr2 XEx yEx SidxEx minIdxEx [3] := by decide

/-- C1 amended: a candidate at queue position `i` is skipped — the loop
state is left unchanged without consulting the classifier — exactly when
`i` is a member of the tracked `good_classif_label` set, whose contents
mix global dataset indices (the seed draws and every appended
misclassified candidate) with queue positions (from batch predictions
after a retrain), rather than being position-based. -/
theorem c1_skip_iff_mem_good {F L : Type} [DecidableEq L]
    (X : Nat → F) (y : Nat → L) (Sidx : List Nat) (st : CNNState) (i : Nat)
    (l : L) (hl : l ≠ y (Sidx.getD i 0)) :
    (∀ pr : List (F × L) → F → L, innerStep pr X y Sidx st i = st) ↔ i ∈ st.good := by
  constructor
  · intro hall
    by_contra hig
    have h := hall (fun _ _ => l)
    have hstep : (innerStep (fun _ _ => l) X y Sidx st i).idxMajSample =
        st.idxMajSample ++ [Sidx.getD i 0] := by
      rw [innerStep, if_neg hig, if_pos (Ne.symm hl)]
    rw [h] at hstep
    have := congrArg List.length hstep
    simp at this
  · intro hig pr
    rw [innerStep, if_pos hig]

/-- Witness for `c1_skip_iff_mem_good` at a concrete state: queue
position 3 of the concrete instance, where `good_classif_label` holds
the global seed index 3, so position 3 is skipped by the source loop. -/
theorem c1_skip_iff_mem_good_w :
    ((2 : Nat) ≠ yEx (SidxEx.getD 3 0))
    ∧ ((∀ pr : List (Nat × Nat) → Nat → Nat,
          innerStep pr XEx yEx SidxEx (CNNState.mk [0, 1, 2, 3] [3] [3]) 3 =
            CNNState.mk [0, 1, 2, 3] [3] [3])
        ↔ 3 ∈ (CNNState.mk [0, 1, 2, 3] [3] [3]).good) :=
  ⟨by decide, c1_skip_iff_mem_good XEx yEx SidxEx (CNNState.mk [0, 1, 2, 3] [3] [3]) 3 2
    (by decide)⟩

/-- C2 counterexample: after the first two candidate-loop iterations of
the concrete run (both misclassify and retrain), the tracked
`good_classif_label` is [3, 4] — it retains the freshly appended global
index 4 — whereas the claimed recomputation, the union of the original
seed indices [3] and the queue members whose fresh batch prediction
matches their true label (none, since the classifier keeps predicting
the absent label 2), is [3]. -/
theorem c2_recompute_cex :
    4 ∈ (loopStateAt pr2 XEx yEx SidxEx (initState minIdxEx [3]) 2).good
    ∧ 4 ∉ npUnique ([3] ++ matchedIdxGlobal pr2 XEx yEx SidxEx
        (loopStateAt pr2 XEx yEx SidxEx (initState minIdxEx [3]) 2).Cidx) := by
  decide

/-- C2 amended: `good_classif_label` is initialized to exactly the seed
draws; after a misclassification-triggered retrain it is recomputed from
scratch as the sorted deduplication of the current accumulated
`idx_maj_sample` (the seed draws plus every global index appended so
far, including the one just appended) together with the queue positions
— not global indices — whose fresh batch prediction matches their true
label. -/
theorem c2_good_recompute {F L : Type} [DecidableEq L] (pr : List (F × L) → F → L)
    (X : Nat → F) (y : Nat → L) (Sidx : List Nat) (st : CNNState) (i : Nat)
    (h1 : i ∉ st.good)
    (h2 : y (Sidx.getD i 0) ≠ pr (fitData st.Cidx X y) (X (Sidx.getD i 0))) :
    (innerStep pr X y Sidx st i).good =
      npUnique ((st.idxMajSample ++ [Sidx.getD i 0]) ++
        matchedPositions pr X y Sidx (st.Cidx ++ [Sidx.getD i 0]))
    ∧ ∀ (m s : List Nat), (initState m s).good = s := by
  constructor
  · rw [innerStep, if_neg h1, if_pos h2]
  · intro m s; rfl

/-- Witness for `c2_good_recompute`: the first candidate position of the
concrete run, which is not in the initial tracked set and misclassifies. -/
theorem c2_good_recompute_w :
    (0 ∉ (initState minIdxEx [3]).good)
    ∧ (yEx (SidxEx.getD 0 0) ≠
        pr2 (fitData (initState minIdxEx [3]).Cidx XEx yEx) (XEx (SidxEx.getD 0 0)))
    ∧ ((innerStep pr2 XEx yEx SidxEx (initState minIdxEx [3]) 0).good =
        npUnique (((initState minIdxEx [3]).idxMajSample ++ [SidxEx.getD 0 0]) ++
          matchedPositions pr2 XEx yEx SidxEx
            ((initState minIdxEx [3]).Cidx ++ [SidxEx.getD 0 0]))
      ∧ ∀ (m s : List Nat), (initState m s).good = s) :=
  ⟨by decide, by decide,
    c2_good_recompute pr2 XEx yEx SidxEx (initState minIdxEx [3]) 0 (by decide) (by decide)⟩

/-- C3 counterexample: `n_neighbors = None` is neither an integer nor a
classifier instance, yet resampling does not raise a configuration
error — the source builds a default 1-NN classifier instead. -/
theorem c3_none_accepted_cex :
    isErr (fitResample (K := Unit) (W := Nat) NNArg.noneArg pr2 rngEx XEx yEx 8
      ([0] : List Nat) 1 none) = false := rfl

/-- C3 amended: a configuration error is raised exactly when
`n_neighbors` is neither `None`, nor an integer, nor a classifier
instance (`None` builds the default 1-NN classifier); the error is a
constant independent of the data, random stream, classifier and weights,
so it occurs before any statistics, seed draws or fits; with `None`, any
integer, or any classifier instance no configuration error is raised. -/
theorem c3_validate_amended {K F L W : Type} [DecidableEq L] [LinearOrder L] :
    (validateEstimator (K := K) NNArg.otherArg = Except.error nnErrorMsg)
    ∧ (∀ (pr : List (F × L) → F → L) (rng : Nat → Nat) (X : Nat → F) (y : Nat → L)
        (n : Nat) (strat : List L) (k : Nat) (w : Option (Nat → W)),
        fitResample (K := K) NNArg.otherArg pr rng X y n strat k w =
          Except.error nnErrorMsg)
    ∧ (∀ (m : Int) (pr : List (F × L) → F → L) (rng : Nat → Nat) (X : Nat → F)
        (y : Nat → L) (n : Nat) (strat : List L) (k : Nat) (w : Option (Nat → W)),
        isErr (fitResample (K := K) (NNArg.intArg m) pr rng X y n strat k w) = false)
    ∧ (∀ (est : K) (pr : List (F × L) → F → L) (rng : Nat → Nat) (X : Nat → F)
        (y : Nat → L) (n : Nat) (strat : List L) (k : Nat) (w : Option (Nat → W)),
        isErr (fitResample (NNArg.knnArg est) pr rng X y n strat k w) = false)
    ∧ (∀ (pr : List (F × L) → F → L) (rng : Nat → Nat) (X : Nat → F)
        (y : Nat → L) (n : Nat) (strat : List L) (k : Nat) (w : Option (Nat → W)),
        isErr (fitResample (K := K) NNArg.noneArg pr rng X y n strat k w) = false) :=
  ⟨rfl, fun _ _ _ _ _ _ _ _ => rfl, fun _ _ _ _ _ _ _ _ _ => rfl,
    fun _ _ _ _ _ _ _ _ _ => rfl, fun _ _ _ _ _ _ _ _ => rfl⟩

/-- C4: for any label absent from the sampling strategy, the emitted
indices carrying that label are exactly that label's full original index
block (in original ascending order), and the per-class loop processes
the distinct labels in ascending label order. -/
theorem c4_passthrough_exact {F L : Type} [DecidableEq L] [LinearOrder L]
    (pr : List (F × L) → F → L) (rng : Nat → Nat) (X : Nat → F) (y : Nat → L)
    (n : Nat) (strat : List L) (k : Nat) (c : L) (hc : c ∉ strat) :
    (fitResampleIdx pr rng X y n strat k).filter (fun i => decide (y i = c)) =
      flatnonzero n y c
    ∧ (classesOf n y).Sorted (· ≤ ·) := by
  constructor
  · rcases hcm : classMinority n y with _ | cm
    · have hn := classMinority_none hcm
      subst hn
      simp [fitResampleIdx, hcm, flatnonzero]
    · simp only [fitResampleIdx, hcm]
      rw [orchestrate_filter pr rng X y (flatnonzero n y cm) strat k n hc
        (classesOf n y) 0 (nodup_classesOf n y)
        (fun c' hc' _ => flatnonzero_ne_nil_of_mem_classesOf hc')]
      by_cases hmem : c ∈ classesOf n y
      · rw [if_pos hmem]
      · rw [if_neg hmem]
        symm
        rw [flatnonzero, List.filter_eq_nil_iff]
        intro a ha
        have : ¬(y a = c) :=
          fun he => hmem (mem_classesOf.mpr ⟨a, List.mem_range.mp ha, he⟩)
        simpa
  · rw [classesOf]
    exact List.sorted_insertionSort _ _

/-- Witness for `c4_passthrough_exact`: label 1 of the concrete instance
is not targeted, and its rows 0, 1, 2 pass through exactly. -/
theorem c4_passthrough_exact_w :
    ((1 : Nat) ∉ ([0] : List Nat))
    ∧ ((fitResampleIdx pr2 rngEx XEx yEx 8 [0] 1).filter
          (fun i => decide (yEx i = 1)) = flatnonzero 8 yEx 1
      ∧ (classesOf 8 yEx).Sorted (· ≤ ·)) :=
  ⟨by decide, c4_passthrough_exact pr2 rngEx XEx yEx 8 [0] 1 1 (by decide)⟩

/-- C5: the minority label is the first-encountered label of globally
minimal count — the first-encounter label list splits around it with
strictly larger counts before it and weakly larger counts everywhere —
and during the processing of any targeted class, every minority index is
in the `C_indices` the classifier is fitted on at every loop step, for
any seed draw. -/
theorem c5_minority_fixed_and_included {F L : Type} [DecidableEq L]
    (pr : List (F × L) → F → L) (X : Nat → F) (y : Nat → L) (n : Nat) (m : L)
    (hm : classMinority n y = some m) :
    (∃ l1 l2, firstDedup (labelsList n y) = l1 ++ m :: l2
      ∧ (∀ c ∈ l1, countLabel n y m < countLabel n y c)
      ∧ (∀ c ∈ firstDedup (labelsList n y), countLabel n y m ≤ countLabel n y c))
    ∧ (∀ (Sidx seeds : List Nat) (t j : Nat), j ∈ flatnonzero n y m →
        j ∈ (loopStateAt pr X y Sidx (initState (flatnonzero n y m) seeds) t).Cidx) := by
  constructor
  · rw [classMinority] at hm
    exact argminFirst_spec (countLabel n y) (firstDedup (labelsList n y)) m hm
  · intro Sidx seeds t j hj
    rcases foldl_Cidx pr X y Sidx ((List.range Sidx.length).take t)
      (initState (flatnonzero n y m) seeds) with ⟨tl, htl⟩
    rw [loopStateAt, htl]
    exact List.mem_append_left _ (List.mem_append_left _ hj)

/-- Labels for the `c5` witness: row 0 has label 5, row 1 has label 7,
a count tie broken toward the first-encountered label 5. -/
def yW5 : Nat → Nat := fun i => if i = 0 then 5 else 7

/-- Witness for `c5_minority_fixed_and_included` on a two-row dataset
with a count tie. -/
theorem c5_minority_fixed_and_included_w :
    (classMinority 2 yW5 = some 5)
    ∧ ((∃ l1 l2, firstDedup (labelsList 2 yW5) = l1 ++ 5 :: l2
        ∧ (∀ c ∈ l1, countLabel 2 yW5 5 < countLabel 2 yW5 c)
        ∧ (∀ c ∈ firstDedup (labelsList 2 yW5), countLabel 2 yW5 5 ≤ countLabel 2 yW5 c))
      ∧ (∀ (Sidx seeds : List Nat) (t j : Nat), j ∈ flatnonzero 2 yW5 5 →
          j ∈ (loopStateAt pr2 XEx yW5 Sidx (initState (flatnonzero 2 yW5 5) seeds) t).Cidx)) :=
  ⟨by decide, c5_minority_fixed_and_included pr2 XEx yW5 2 5 (by decide)⟩

/-- C6: for a nonempty targeted class, exactly `k` seed indices are
drawn from the class's own index set (with replacement, via the raw
stream reduced modulo the class size); the emitted indices for the class
extend the seed draws — duplicates included — as a prefix; and every
emitted index belongs to the class's own index set. -/
theorem c6_seed_inclusion {F L : Type} [DecidableEq L] (pr : List (F × L) → F → L)
    (rng : Nat → Nat) (X : Nat → F) (y : Nat → L) (n : Nat) (c : L)
    (minIdx : List Nat) (ctr k : Nat) (h : flatnonzero n y c ≠ []) :
    (seedsFor rng ctr k (flatnonzero n y c)).length = k
    ∧ (∀ s ∈ seedsFor rng ctr k (flatnonzero n y c), s ∈ flatnonzero n y c)
    ∧ (∃ t, processClass pr X y (flatnonzero n y c) minIdx
          (seedsFor rng ctr k (flatnonzero n y c)) =
        seedsFor rng ctr k (flatnonzero n y c) ++ t)
    ∧ (∀ x ∈ processClass pr X y (flatnonzero n y c) minIdx
          (seedsFor rng ctr k (flatnonzero n y c)), x ∈ flatnonzero n y c) := by
  refine ⟨by simp [seedsFor], fun s hs => mem_seedsFor h hs, ?_, ?_⟩
  · rcases foldl_sample pr X y (flatnonzero n y c) (List.range (flatnonzero n y c).length)
      (initState minIdx (seedsFor rng ctr k (flatnonzero n y c))) with ⟨t, ht, _⟩
    exact ⟨t, by rw [processClass, ht]; rfl⟩
  · intro x hx
    exact mem_processClass (fun s hs => mem_seedsFor h hs) hx

/-- Witness for `c6_seed_inclusion`: target class 0 of the concrete
instance with one seed draw. -/
theorem c6_seed_inclusion_w :
    (flatnonzero 8 yEx 0 ≠ [])
    ∧ ((seedsFor rngEx 0 1 (flatnonzero 8 yEx 0)).length = 1
      ∧ (∀ s ∈ seedsFor rngEx 0 1 (flatnonzero 8 yEx 0), s ∈ flatnonzero 8 yEx 0)
      ∧ (∃ t, processClass pr2 XEx yEx (flatnonzero 8 yEx 0) minIdxEx
            (seedsFor rngEx 0 1 (flatnonzero 8 yEx 0)) =
          seedsFor rngEx 0 1 (flatnonzero 8 yEx 0) ++ t)
      ∧ (∀ x ∈ processClass pr2 XEx yEx (flatnonzero 8 yEx 0) minIdxEx
            (seedsFor rngEx 0 1 (flatnonzero 8 yEx 0)), x ∈ flatnonzero 8 yEx 0)) :=
  ⟨by decide, c6_seed_inclusion pr2 rngEx XEx yEx 8 0 minIdxEx 0 1 (by decide)⟩

/-- C7: every index in the accumulated `idx_under` — and hence every
index at which output rows, labels and weights are gathered — lies below
the original row count. -/
theorem c7_indices_in_range {F L : Type} [DecidableEq L] [LinearOrder L]
    (pr : List (F × L) → F → L) (rng : Nat → Nat) (X : Nat → F) (y : Nat → L)
    (n : Nat) (strat : List L) (k : Nat) :
    ∀ x ∈ fitResampleIdx pr rng X y n strat k, x < n := by
  intro x hx
  rcases hcm : classMinority n y with _ | cm
  · simp [fitResampleIdx, hcm] at hx
  · simp only [fitResampleIdx, hcm] at hx
    rcases orchestrate_mem pr rng X y (flatnonzero n y cm) strat k n (classesOf n y) 0
      (fun c' hc' _ => flatnonzero_ne_nil_of_mem_classesOf hc') x hx with ⟨c, _, hxc⟩
    exact (mem_flatnonzero.mp hxc).1

/-- Witness for `c7_indices_in_range` on the concrete instance. -/
theorem c7_indices_in_range_w :
    (3 ∈ fitResampleIdx pr2 rngEx XEx yEx 8 [0] 1) ∧ 3 < 8 :=
  ⟨by decide, c7_indices_in_range pr2 rngEx XEx yEx 8 [0] 1 3 (by decide)⟩

/-- C8: two runs with extensionally identical random streams, features,
labels and classifier collaborator, and identical configuration, emit
identical index sequences — the embedding is a pure function of exactly
these inputs. -/
theorem c8_determinism {F L : Type} [DecidableEq L] [LinearOrder L]
    (prA prB : List (F × L) → F → L) (rngA rngB : Nat → Nat)
    (XA XB : Nat → F) (yA yB : Nat → L) (n : Nat) (strat : List L) (k : Nat)
    (hpr : ∀ d f, prA d f = prB d f) (hrng : ∀ i, rngA i = rngB i)
    (hX : ∀ i, XA i = XB i) (hy : ∀ i, yA i = yB i) :
    fitResampleIdx prA rngA XA yA n strat k = fitResampleIdx prB rngB XB yB n strat k := by
  have e1 : prA = prB := funext fun d => funext fun f => hpr d f
  have e2 : rngA = rngB := funext hrng
  have e3 : XA = XB := funext hX
  have e4 : yA = yB := funext hy
  rw [e1, e2, e3, e4]

/-- Witness for `c8_determinism` on the concrete instance. -/
theorem c8_determinism_w :
    (∀ i : Nat, rngEx i = rngEx i)
    ∧ fitResampleIdx pr2 rngEx XEx yEx 8 [0] 1 = fitResampleIdx pr2 rngEx XEx yEx 8 [0] 1 :=
  ⟨fun _ => rfl,
    c8_determinism pr2 pr2 rngEx rngEx XEx XEx yEx yEx 8 [0] 1
      (fun _ _ => rfl) (fun _ => rfl) (fun _ => rfl) (fun _ => rfl)⟩

/-- The candidate loop leaves the initial state untouched when the
classifier fitted on minority plus seeds already classifies every
visited candidate correctly. -/
theorem foldl_initState_fixed {F L : Type} [DecidableEq L] (pr : List (F × L) → F → L)
    (X : Nat → F) (y : Nat → L) (Sidx minIdx seeds : List Nat) :
    ∀ l : List Nat,
      (∀ i ∈ l, pr (fitData (minIdx ++ seeds) X y) (X (Sidx.getD i 0)) = y (Sidx.getD i 0)) →
      l.foldl (innerStep pr X y Sidx) (initState minIdx seeds) = initState minIdx seeds := by
  intro l
  induction l with
  | nil => intro _; rfl
  | cons i l ih =>
    intro h
    have hstep : innerStep pr X y Sidx (initState minIdx seeds) i = initState minIdx seeds := by
      by_cases hg : i ∈ (initState minIdx seeds).good
      · rw [innerStep, if_pos hg]
      · rw [innerStep, if_neg hg]
        have hc : ¬(y (Sidx.getD i 0) ≠
            pr (fitData (initState minIdx seeds).Cidx X y) (X (Sidx.getD i 0))) :=
          not_not_intro (h i (List.mem_cons_self _ _)).symm
        rw [if_neg hc]
    rw [List.foldl_cons, hstep, ih (fun j hj => h j (List.mem_cons_of_mem _ hj))]

/-- C9: if the classifier fitted on the minority indices plus the seed
draws classifies every candidate of the targeted class correctly, the
emitted majority-side indices for that class are exactly the seed draws,
with no growth. -/
theorem c9_no_growth {F L : Type} [DecidableEq L] (pr : List (F × L) → F → L)
    (X : Nat → F) (y : Nat → L) (Sidx minIdx seeds : List Nat)
    (h : ∀ i, i < Sidx.length →
      pr (fitData (minIdx ++ seeds) X y) (X (Sidx.getD i 0)) = y (Sidx.getD i 0)) :
    processClass pr X y Sidx minIdx seeds = seeds := by
  rw [processClass,
    foldl_initState_fixed pr X y Sidx minIdx seeds (List.range Sidx.length)
      (fun i hi => h i (List.mem_range.mp hi))]
  rfl

/-- Labels for the `c9` witness: the parity of the row index. -/
def yW2 : Nat → Nat := fun i => i % 2

/-- A classifier collaborator for the `c9` witness that predicts the
parity of the query feature, hence is always correct on `yW2` rows. -/
def prW : List (Nat × Nat) → Nat → Nat := fun _ f => f % 2

/-- Witness for `c9_no_growth`: with an always-correct classifier, the
candidate queue [1, 3] with seed [1] emits exactly [1]. -/
theorem c9_no_growth_w :
    (∀ i, i < ([1, 3] : List Nat).length →
      prW (fitData ([0, 2] ++ [1]) XEx yW2) (XEx (([1, 3] : List Nat).getD i 0)) =
        yW2 (([1, 3] : List Nat).getD i 0))
    ∧ processClass prW XEx yW2 [1, 3] [0, 2] [1] = [1] :=
  ⟨by decide, c9_no_growth prW XEx yW2 [1, 3] [0, 2] [1] (by decide)⟩

/-- C10: with a valid estimator configuration, resampling returns the
accumulated index sequence as the `sample_indices_` artifact together
with the feature rows and labels gathered elementwise at exactly those
indices in accumulation order, and the gathered weights exactly when a
weight sequence was supplied (`none` otherwise). -/
theorem c10_result_assembly {K F L W : Type} [DecidableEq L] [LinearOrder L]
    (arg : NNArg K) (e : Estimator K) (pr : List (F × L) → F → L) (rng : Nat → Nat)
    (X : Nat → F) (y : Nat → L) (n : Nat) (strat : List L) (k : Nat)
    (w : Option (Nat → W)) (h : validateEstimator arg = Except.ok e) :
    fitResample arg pr rng X y n strat k w =
      Except.ok
        { sampleIndices := fitResampleIdx pr rng X y n strat k
          Xout := (fitResampleIdx pr rng X y n strat k).map X
          yout := (fitResampleIdx pr rng X y n strat k).map y
          wout := w.map (fun wf => (fitResampleIdx pr rng X y n strat k).map wf) } := by
  simp [fitResample, h]

/-- Witness for `c10_result_assembly` with an integer `n_neighbors` and
a supplied weight sequence. -/
theorem c10_result_assembly_w :
    (validateEstimator (K := Unit) (NNArg.intArg 1) =
      Except.ok (Estimator.defaultKNN 1))
    ∧ fitResample (K := Unit) (NNArg.intArg 1) pr2 rngEx XEx yW2 2 ([] : List Nat) 1 (some XEx) =
        Except.ok
          { sampleIndices := fitResampleIdx pr2 rngEx XEx yW2 2 [] 1
            Xout := (fitResampleIdx pr2 rngEx XEx yW2 2 [] 1).map XEx
            yout := (fitResampleIdx pr2 rngEx XEx yW2 2 [] 1).map yW2
            wout := (some XEx).map (fun wf => (fitResampleIdx pr2 rngEx XEx yW2 2 [] 1).map wf) } :=
  ⟨rfl, c10_result_assembly (K := Unit) (NNArg.intArg 1) (Estimator.defaultKNN 1) pr2 rngEx
    XEx yW2 2 [] 1 (some XEx) rfl⟩

end CNNUS
